import Mathlib

/-!
# Verification of the RV node-graph visualization plugin

Shallow embedding of `rv_node_graph.py`: the hierarchy builder
(`get_rv_hierarchy`), color classifier (`get_node_color`), display-name
stripping (`_stripped_name`), the recursive graph builder (`_build_graph`
inside `RVNodeGraphDialog.build_graph`), the expand handlers, and the
module-level mode singleton (`createMode` / `theMode`).

The host application (RV) is modeled as a read-only query surface `Host`;
the node-graph GUI library (NodeGraphQt) is modeled by an explicit canvas
state `Canvas` holding visual nodes, port-to-port edges, warning output and
group sub-canvases.  Python strings are modeled by `String`, with slicing,
`startswith` and the `in` operator working on the code-point list `.data`
exactly as Python indexes by code point.
-/

/-- Python `needle in haystack` on code-point lists: does `pat` occur as a
contiguous sublist of `l`? -/
def containsSub (pat : List Char) : List Char → Bool
  | [] => pat.isEmpty
  | c :: rest => pat.isPrefixOf (c :: rest) || containsSub pat rest

/-- Python `pat in s` for strings. -/
def pyIn (pat s : String) : Bool := containsSub pat.data s.data

/-- Python `s.startswith(p)`. -/
def pyStartswith (s p : String) : Bool := p.data.isPrefixOf s.data

/-- Python `s[n:]` (slicing by code point). -/
def pySlice (s : String) (n : Nat) : String := String.mk (s.data.drop n)

/-- Python `len(s)` (number of code points). -/
def pyLen (s : String) : Nat := s.data.length

/-- The read-only query surface of the host application (`rv.commands`).
`nodeGroup` returns the parent group name, with `""` standing for the
falsy no-group answer (Python checks it with `if not group`).
`nodeConnections` returns the `(inputs, outputs)` neighbor-name lists. -/
structure Host where
  nodes : List String
  nodeGroup : String → String
  nodeType : String → String
  nodeConnections : String → List String × List String

/-- `get_node_color` from the source: first matching case-sensitive
substring rule wins; the falsy (empty) type string and any unmatched
string give the neutral default `(100, 100, 100)`. -/
def get_node_color (node_type : String) : Nat × Nat × Nat :=
  if node_type = "" then (100, 100, 100)
  else if pyIn "Source" node_type then (80, 120, 80)
  else if pyIn "LUT" node_type then (150, 120, 80)
  else if pyIn "Filter" node_type then (120, 100, 80)
  else if pyIn "View" node_type || pyIn "Display" node_type then (80, 80, 130)
  else if pyIn "Sequence" node_type then (130, 80, 130)
  else if pyIn "Stack" node_type then (80, 130, 130)
  else if pyIn "Layout" node_type then (130, 130, 80)
  else if pyIn "Group" node_type then (110, 110, 110)
  else (100, 100, 100)

/-- The priority-ordered substring rules as stated by the spec
(section 4.2): Source, LUT, Filter, View-or-Display, Sequence, Stack,
Layout, Group, with their colors. -/
def spec_color_rules : List (List String × (Nat × Nat × Nat)) :=
  [(["Source"], (80, 120, 80)),
   (["LUT"], (150, 120, 80)),
   (["Filter"], (120, 100, 80)),
   (["View", "Display"], (80, 80, 130)),
   (["Sequence"], (130, 80, 130)),
   (["Stack"], (80, 130, 130)),
   (["Layout"], (130, 130, 80)),
   (["Group"], (110, 110, 110))]

/-- The classifier as the spec words it: the first rule in the fixed
priority list whose keyword set matches wins; empty or unmatched strings
give the neutral default. -/
def spec_node_color (node_type : String) : Nat × Nat × Nat :=
  if node_type = "" then (100, 100, 100)
  else
    match spec_color_rules.find? (fun r => r.1.any (fun kw => pyIn kw node_type)) with
    | some r => r.2
    | none => (100, 100, 100)

/-- A nested node dictionary (Python `dict[str, dict]`, insertion
ordered): one entry per node name, carrying the dictionary of its
children. -/
inductive HTree : Type where
  | node (name : String) (children : List HTree)

/-- The key of a dictionary entry. -/
def HTree.key : HTree → String
  | .node n _ => n

mutual
/-- Number of occurrences of `m` as a key anywhere in an entry. -/
def occT (m : String) : HTree → Nat
  | .node n cs => (if n = m then 1 else 0) + occF m cs
/-- Number of occurrences of `m` as a key anywhere in a forest. -/
def occF (m : String) : List HTree → Nat
  | [] => 0
  | t :: ts => occT m t + occF m ts
end

mutual
/-- The keys appearing in the child dictionary of every entry named `g`
inside a single entry. -/
def childKeysT (g : String) : HTree → List String
  | .node n cs => (if n = g then cs.map HTree.key else []) ++ childKeysF g cs
/-- The keys appearing in the child dictionary of every entry named `g`
inside a forest. -/
def childKeysF (g : String) : List HTree → List String
  | [] => []
  | t :: ts => childKeysT g t ++ childKeysF g ts
end

/-- Python `d[k] = {}` on an insertion-ordered dictionary: overwrite in
place if the key is present, else append a fresh empty entry. -/
def dictInsert (f : List HTree) (k : String) : List HTree :=
  if f.any (fun t => t.key == k) then
    f.map (fun t => if t.key = k then .node k [] else t)
  else f ++ [.node k []]

mutual
/-- Insert key `k` (with an empty dictionary) into the child dictionary of
the entry named `g`.  The Python code reaches that dictionary through the
reference stored in `all_nodes_map[g]`; since host node names are unique,
that reference is exactly the dictionary of the unique entry named `g`,
which we model by name. -/
def insT (g k : String) : HTree → HTree
  | .node n cs => .node n (if n = g then dictInsert cs k else insF g k cs)
/-- `insT` mapped over a forest. -/
def insF (g k : String) : List HTree → List HTree
  | [] => []
  | t :: ts => insT g k t :: insF g k ts
end

/-- State of the `get_rv_hierarchy` loop: `forest` is `root_nodes`,
`indexed` records the keys of `all_nodes_map` in insertion order. -/
structure HierSt where
  forest : List HTree
  indexed : List String

/-- One iteration of the `get_rv_hierarchy` loop.  `all_nodes_map[group]`
raises `KeyError` (`.error ()`) when `group` has not been indexed. -/
def hierStep (host : Host) (st : HierSt) (name : String) : Except Unit HierSt :=
  let group := host.nodeGroup name
  if group = "" then
    .ok ⟨dictInsert st.forest name, st.indexed ++ [name]⟩
  else if group ∈ st.indexed then
    .ok ⟨insF group name st.forest, st.indexed ++ [name]⟩
  else
    .error ()

/-- Run the loop over the remaining node names; a raised `KeyError`
aborts immediately (it is not caught anywhere in the file). -/
def hierRun (host : Host) : HierSt → List String → Except Unit HierSt
  | st, [] => .ok st
  | st, n :: ns =>
    match hierStep host st n with
    | .error e => .error e
    | .ok st₂ => hierRun host st₂ ns

/-- `get_rv_hierarchy` from the source: fold the host enumeration into
the nested `root_nodes` dictionary. -/
def get_rv_hierarchy (host : Host) : Except Unit (List HTree) :=
  (hierRun host ⟨[], []⟩ host.nodes).map (fun st => st.forest)

/-- A visual node as created by pass 1 of `_build_graph`: display name
(`set_name`), the stored `original_name` and `node_type` properties, the
display color, and whether it was created as `rv.RVGroupNode`.  Every
visual node has one multi-input port and one output port. -/
structure VNode where
  name : String
  original_name : String
  node_type : String
  color : Nat × Nat × Nat
  isGroup : Bool
deriving DecidableEq

/-- One end of a wire: the single output (resp. multi-input) port of a
visual node identified by display name, or one of the two synthetic
boundary port nodes a sub-canvas owns. -/
inductive PortRef : Type where
  | vnode (name : String)
  | boundaryIn
  | boundaryOut
deriving DecidableEq

/-- A wire from the output port of `src` to the input port of `dst`
(`src.output(0).connect_to(dst.input(0))`). -/
structure Edge where
  src : PortRef
  dst : PortRef
deriving DecidableEq

/-- A NodeGraphQt canvas (`NodeGraph` or `SubGraph`) as observable state:
whether it is a sub-canvas, whether it has synthetic input/output boundary
port nodes, its visual nodes and wires in creation order, the warning
diagnostics printed while wiring it, and the sub-canvas owned by each
expanded-at-least-once group node (keyed by the group's display name,
with its current `is_expanded` flag). -/
inductive Canvas : Type where
  | mk (isSub hasInPort hasOutPort : Bool)
       (vnodes : List VNode) (edges : List Edge)
       (warnings : List String)
       (subs : List (String × Bool × Canvas)) : Canvas

def Canvas.isSub : Canvas → Bool
  | .mk s _ _ _ _ _ _ => s

def Canvas.hasInPort : Canvas → Bool
  | .mk _ i _ _ _ _ _ => i

def Canvas.hasOutPort : Canvas → Bool
  | .mk _ _ o _ _ _ _ => o

def Canvas.vnodes : Canvas → List VNode
  | .mk _ _ _ v _ _ _ => v

def Canvas.edges : Canvas → List Edge
  | .mk _ _ _ _ e _ _ => e

def Canvas.warnings : Canvas → List String
  | .mk _ _ _ _ _ w _ => w

def Canvas.subs : Canvas → List (String × Bool × Canvas)
  | .mk _ _ _ _ _ _ s => s

/-- `graph.create_node(...)` followed by the `set_*` calls: append a
fully configured visual node. -/
def Canvas.addVNode : Canvas → VNode → Canvas
  | .mk a b c v e w s, n => .mk a b c (v ++ [n]) e w s

/-- `connect_to`: append a wire. -/
def Canvas.addEdge : Canvas → Edge → Canvas
  | .mk a b c v e w s, ed => .mk a b c v (e ++ [ed]) w s

/-- A printed `WARNING` diagnostic. -/
def Canvas.addWarning : Canvas → String → Canvas
  | .mk a b c v e w s, msg => .mk a b c v e (w ++ [msg]) s

/-- `graph.get_node_by_name(nm)`: first visual node with that display
name, if any. -/
def Canvas.findNode (g : Canvas) (nm : String) : Option VNode :=
  g.vnodes.find? (fun v => v.name == nm)

/-- The sub-graph session NodeGraphQt creates the first time a group node
is expanded: a sub-canvas with one synthetic input and one synthetic
output boundary port node (our groups always have one `in` and one `out`
port), initially empty. -/
def emptySubCanvas : Canvas := .mk true true true [] [] [] []

/-- The sub-canvas owned by the group node with display name `nm`
(created fresh on first expand). -/
def Canvas.getSub (g : Canvas) (nm : String) : Canvas :=
  match g.subs.find? (fun e => e.1 == nm) with
  | some e => e.2.2
  | none => emptySubCanvas

/-- Store the sub-canvas of group `nm` together with its `is_expanded`
flag (used for `expand()`, `collapse()` and for writing back the
recursively built sub-graph). -/
def Canvas.setSub : Canvas → String → Bool → Canvas → Canvas
  | .mk a b c v e w s, nm, exp, sub =>
    if s.any (fun it => it.1 == nm) then
      .mk a b c v e w (s.map (fun it => if it.1 = nm then (nm, exp, sub) else it))
    else
      .mk a b c v e w (s ++ [(nm, exp, sub)])

/-- `node.is_expanded` for the group node with display name `nm`
(a never-expanded group is collapsed). -/
def Canvas.subExpanded (g : Canvas) (nm : String) : Bool :=
  match g.subs.find? (fun e => e.1 == nm) with
  | some e => e.2.1
  | none => false

/-- `_stripped_name` from the source: if the node has a (truthy) parent
group and its name starts with the group's name, drop the group name and
the following separator character. -/
def stripped_name (host : Host) (node_name : String) : String :=
  let group := host.nodeGroup node_name
  if group ≠ "" ∧ pyStartswith node_name group = true then
    pySlice node_name (pyLen group + 1)
  else node_name

/-- Pass 1 body of `_build_graph` for one entry: create an
`rv.RVGroupNode` if the entry has children, else an `rv.RVNode`; set its
color from the host type, its display name by prefix stripping, and the
`original_name` / `node_type` properties. -/
def addNodeFor (host : Host) (g : Canvas) : HTree → Canvas
  | .node node_name children =>
    let node_type := host.nodeType node_name
    g.addVNode
      { name := stripped_name host node_name
        original_name := node_name
        node_type := node_type
        color := get_node_color node_type
        isGroup := !children.isEmpty }

/-- Pass 1 of `_build_graph`: create a visual node for every entry. -/
def create_nodes (host : Host) (g : Canvas) (ts : List HTree) : Canvas :=
  ts.foldl (addNodeFor host) g

/-- Body of the upstream-neighbor loop: wire the neighbor's output port
to this node's input port, or print a `WARNING` and skip the wire when
the neighbor's visual node is not in this canvas. -/
def wireInputStep (host : Host) (node : VNode) (node_name : String)
    (acc : Canvas) (input_node_name : String) : Canvas :=
  match acc.findNode (stripped_name host input_node_name) with
  | some input_node => acc.addEdge ⟨.vnode input_node.name, .vnode node.name⟩
  | none =>
    acc.addWarning
      ("WARNING: Input node " ++ input_node_name ++ " not found for " ++ node_name)

/-- The upstream half of the pass 2 loop body: if the entry has inputs,
wire each of them; otherwise, on a sub-canvas owning an input boundary
port node, wire that port to this node's input. -/
def wireInputs (host : Host) (node : VNode) (node_name : String)
    (g : Canvas) (inputs : List String) : Canvas :=
  if !inputs.isEmpty then
    inputs.foldl (wireInputStep host node node_name) g
  else if g.isSub then
    if g.hasInPort then g.addEdge ⟨.boundaryIn, .vnode node.name⟩ else g
  else g

/-- The downstream condition of the pass 2 loop body, Python
`not outputs or rvc.nodeGroup(outputs[0]) != rvc.nodeGroup(node_name)`:
no downstream neighbor, or the first one lies in a different group. -/
def firstOutputOutside (host : Host) (node_name : String)
    (outputs : List String) : Bool :=
  match outputs with
  | [] => true
  | o :: _ => host.nodeGroup o != host.nodeGroup node_name

/-- Pass 2 body of `_build_graph` for one entry, parameterized by the
recursive build (`rec`) applied to an expanded group's sub-canvas:
resolve the entry's visual node by display name (skipping the whole entry
if it is absent), wire its upstream neighbors (or the sub-canvas input
boundary port when it has none), wire it to the sub-canvas output
boundary port when its first downstream neighbor is absent or lies in a
different group, and finally expand, recursively build and re-collapse
its sub-canvas when the entry has children. -/
def wireEntry (host : Host) (rec : Canvas → List HTree → Canvas)
    (g : Canvas) : HTree → Canvas
  | .node node_name children =>
    match g.findNode (stripped_name host node_name) with
    | none => g
    | some node =>
      let conns := host.nodeConnections node_name
      let g1 := wireInputs host node node_name g conns.1
      let g2 :=
        if firstOutputOutside host node_name conns.2 && g.isSub then
          if g.hasOutPort then g1.addEdge ⟨.vnode node.name, .boundaryOut⟩ else g1
        else g1
      if !children.isEmpty then
        g2.setSub node.name false (rec (g2.getSub node.name) children)
      else g2

/-- Pass 2 of `_build_graph` over all entries of one canvas. -/
def wirePass (host : Host) (rec : Canvas → List HTree → Canvas)
    (g : Canvas) (ts : List HTree) : Canvas :=
  ts.foldl (wireEntry host rec) g

/-- `graph.auto_layout_nodes()`: pure geometry, no observable effect on
the modeled state. -/
def auto_layout_nodes (g : Canvas) : Canvas := g

/-- `graph.fit_to_selection()`: pure geometry. -/
def fit_to_selection (g : Canvas) : Canvas := g

/-- `graph.clear_selection()`: selection state is not part of the model. -/
def clear_selection (g : Canvas) : Canvas := g

/-- `_build_graph` from the source, with a fuel bound on the recursion
depth (the Python recursion is bounded by the depth of the finite
hierarchy tree; callers pass fuel exceeding that depth, so the fuel case
never fires): pass 1 creates the visual nodes, pass 2 wires them and
recursively builds expanded group sub-canvases, then the canvas is laid
out. -/
def buildGraphFuel (host : Host) : Nat → Canvas → List HTree → Canvas
  | 0, g, _ => g
  | fuel + 1, g, ts =>
    let g1 := create_nodes host g ts
    let g2 := wirePass host (buildGraphFuel host fuel) g1 ts
    clear_selection (fit_to_selection (auto_layout_nodes g2))

mutual
/-- Depth of one hierarchy entry. -/
def depthT : HTree → Nat
  | .node _ cs => depthF cs + 1
/-- Depth of a hierarchy forest. -/
def depthF : List HTree → Nat
  | [] => 0
  | t :: ts => max (depthT t) (depthF ts)
end

/-- The top-level canvas after `clear_session()`: a plain `NodeGraph`
(not a `SubGraph`), with no boundary port nodes and no contents. -/
def topCanvas : Canvas := .mk false false false [] [] [] []

/-- `RVNodeGraphDialog.build_graph`: clear the session, query the host
hierarchy (a `KeyError` raised there propagates and aborts the build),
then run `_build_graph` on the root. -/
def build_graph (host : Host) : Except Unit Canvas :=
  match get_rv_hierarchy host with
  | .error e => .error e
  | .ok forest => .ok (buildGraphFuel host (depthF forest + 1) topCanvas forest)

/-- `expand_group_node` from the source, acting on the group node with
display name `nm`: if the node is not already expanded, expand it and
print the expansion notice.  The returned list is the expansion-notice
output of the call. -/
def expand_group_node (g : Canvas) (nm : String) : Canvas × List String :=
  if g.subExpanded nm = false then
    ((g.setSub nm true (g.getSub nm)), ["Expanding group node: " ++ nm])
  else (g, [])

/-- `_on_node_double_clicked` restricted to its expansion effect: when
the clicked node is an `RVGroupNode`, delegate to `expand_group_node`
(the unconditional debug print is not an expansion notice and is not
modeled). -/
def on_node_double_clicked (g : Canvas) (nm : String) (isGroupNode : Bool) :
    Canvas × List String :=
  if isGroupNode then expand_group_node g nm else (g, [])

/-- Process-wide state of the mode-loading mechanism: the module global
`g_the_mode` (holding the identity of the stored instance, if any) and
the number of `RVNodeGraphVizQt` constructions performed so far.  A fresh
instance is identified by the construction counter at its creation. -/
structure ModeSt where
  g_the_mode : Option Nat
  constructed : Nat

/-- `createMode` from the source: construct the singleton on first call,
afterwards return the stored instance. -/
def createMode (s : ModeSt) : Nat × ModeSt :=
  match s.g_the_mode with
  | some m => (m, s)
  | none =>
    (s.constructed, { g_the_mode := some s.constructed, constructed := s.constructed + 1 })

/-- `theMode` from the source: call `createMode` when the global is still
unset, then return the global. -/
def theMode (s : ModeSt) : Nat × ModeSt :=
  match s.g_the_mode with
  | some m => (m, s)
  | none =>
    let s2 := (createMode s).2
    (s2.g_the_mode.getD 0, s2)

/-- The two entry points the host may call, in any order. -/
inductive ModeCall : Type where
  | create
  | the

/-- Run a sequence of `createMode` / `theMode` calls from a process
state, collecting the returned instances. -/
def runModeCalls (s : ModeSt) : List ModeCall → List Nat × ModeSt
  | [] => ([], s)
  | c :: cs =>
    let r :=
      match c with
      | .create => createMode s
      | .the => theMode s
    let rest := runModeCalls r.2 cs
    (r.1 :: rest.1, rest.2)

/-- Process start: no instance constructed yet. -/
def initModeSt : ModeSt := { g_the_mode := none, constructed := 0 }

/-- A list is a `isPrefixOf` of itself followed by anything. -/
theorem isPrefixOf_append_self (a b : List Char) : a.isPrefixOf (a ++ b) = true := by
  induction a with
  | nil => simp [List.isPrefixOf]
  | cons x xs ih => simp [List.isPrefixOf, ih]

/-- Claim C3: `get_node_color` is a pure function from the node-type
string to an RGB triple that agrees everywhere with the spec's
first-match priority rule list (Source, LUT, Filter, View-or-Display,
Sequence, Stack, Layout, Group): the first matching case-sensitive
substring rule wins, an empty or unmatched string yields the neutral
default `(100, 100, 100)`, and a string matching several keywords gets
the earlier rule's color. -/
theorem get_node_color_matches_spec (node_type : String) :
    get_node_color node_type = spec_node_color node_type := by
  by_cases hs : node_type = ""
  · simp [get_node_color, spec_node_color, hs]
  · simp only [get_node_color, spec_node_color, spec_color_rules, if_neg hs]
    cases h1 : pyIn "Source" node_type with
    | true => simp [List.find?, h1]
    | false =>
    cases h2 : pyIn "LUT" node_type with
    | true => simp [List.find?, h1, h2]
    | false =>
    cases h3 : pyIn "Filter" node_type with
    | true => simp [List.find?, h1, h2, h3]
    | false =>
    cases h4 : pyIn "View" node_type with
    | true => simp [List.find?, h1, h2, h3, h4]
    | false =>
    cases h5 : pyIn "Display" node_type with
    | true => simp [List.find?, h1, h2, h3, h4, h5]
    | false =>
    cases h6 : pyIn "Sequence" node_type with
    | true => simp [List.find?, h1, h2, h3, h4, h5, h6]
    | false =>
    cases h7 : pyIn "Stack" node_type with
    | true => simp [List.find?, h1, h2, h3, h4, h5, h6, h7]
    | false =>
    cases h8 : pyIn "Layout" node_type with
    | true => simp [List.find?, h1, h2, h3, h4, h5, h6, h7, h8]
    | false =>
    cases h9 : pyIn "Group" node_type with
    | true => simp [List.find?, h1, h2, h3, h4, h5, h6, h7, h8, h9]
    | false => simp [List.find?, h1, h2, h3, h4, h5, h6, h7, h8, h9]

/-- Claim C5: the display name of a visual node is the host name with the
parent group's prefix stripped.  If the node has a group and its host
name is the group name followed by a separator character and a rest, the
display name is that rest; if it has no group or its host name does not
start with the group's name, the display name is the host name
unchanged. -/
theorem stripped_name_spec (host : Host) (node_name : String) (c : Char) (rest : String) :
    (host.nodeGroup node_name ≠ "" →
      node_name.data = (host.nodeGroup node_name).data ++ c :: rest.data →
      stripped_name host node_name = rest)
    ∧ ((host.nodeGroup node_name = "" ∨
        pyStartswith node_name (host.nodeGroup node_name) = false) →
      stripped_name host node_name = node_name) := by
  constructor
  · intro hg hdata
    have hpre : pyStartswith node_name (host.nodeGroup node_name) = true := by
      unfold pyStartswith
      rw [hdata]
      exact isPrefixOf_append_self _ _
    simp only [stripped_name]
    rw [if_pos ⟨hg, hpre⟩]
    simp only [pySlice, pyLen]
    rw [hdata]
    have hassoc : (host.nodeGroup node_name).data ++ c :: rest.data =
        ((host.nodeGroup node_name).data ++ [c]) ++ rest.data := by simp
    have hlen : (host.nodeGroup node_name).data.length + 1 =
        ((host.nodeGroup node_name).data ++ [c]).length := by simp
    rw [hassoc, hlen, List.drop_left]
  · intro h
    simp only [stripped_name]
    rcases h with h | h
    · rw [if_neg (by simp [h])]
    · rw [if_neg (by simp [h])]

/-- A host whose only interesting fact is that node `group1_node5` lives
in group `group1`; used to witness the name stripping. -/
def hostStripW : Host :=
  { nodes := []
    nodeGroup := fun n => if n = "group1_node5" then "group1" else ""
    nodeType := fun _ => ""
    nodeConnections := fun _ => ([], []) }

/-- Witness for C5: `group1_node5` in group `group1` displays as
`node5`, and a group-less node displays unchanged. -/
theorem stripped_name_spec_witness :
    stripped_name hostStripW "group1_node5" = "node5" ∧
    stripped_name hostStripW "other" = "other" :=
  ⟨(stripped_name_spec hostStripW "group1_node5" '_' "node5").1 (by decide) (by decide),
   (stripped_name_spec hostStripW "other" '_' "node5").2 (Or.inl rfl)⟩

/-- Claim C8: expanding is idempotent.  Invoking the `Expand Group`
command (`expand_group_node`), or the double-click handler on a group
node, when the node's `is_expanded` flag is already set, leaves the
canvas unchanged and emits no expansion notice; only a collapsed group
gets expanded. -/
theorem expand_group_idempotent (g : Canvas) (nm : String)
    (h : g.subExpanded nm = true) :
    expand_group_node g nm = (g, []) ∧
    on_node_double_clicked g nm true = (g, []) := by
  have h1 : expand_group_node g nm = (g, []) := by
    unfold expand_group_node
    rw [h]
    simp
  exact ⟨h1, by simpa [on_node_double_clicked] using h1⟩

/-- A canvas holding one already-expanded group `G`. -/
def expandedCanvasW : Canvas :=
  .mk false false false [] [] [] [("G", true, emptySubCanvas)]

/-- Witness for C8 on a concrete already-expanded group. -/
theorem expand_group_idempotent_witness :
    expand_group_node expandedCanvasW "G" = (expandedCanvasW, []) ∧
    on_node_double_clicked expandedCanvasW "G" true = (expandedCanvasW, []) :=
  expand_group_idempotent expandedCanvasW "G" rfl

/-- Once the global holds an instance, every further call returns exactly
that instance and leaves the process state unchanged. -/
theorem runModeCalls_stable (m : Nat) : ∀ (cs : List ModeCall) (s : ModeSt),
    s.g_the_mode = some m →
    runModeCalls s cs = (List.replicate cs.length m, s) := by
  intro cs
  induction cs with
  | nil => intro s _; simp [runModeCalls]
  | cons c cs ih =>
    intro s h
    cases c <;>
      simp [runModeCalls, createMode, theMode, h, ih s h, List.replicate_succ]

/-- Claim C9: the plugin mode is a process-wide singleton.  Starting from
process start, any sequence of `createMode` / `theMode` calls constructs
the `RVNodeGraphVizQt` instance lazily on the first call (zero
constructions with no calls, exactly one otherwise) and every call
returns that same first instance. -/
theorem mode_singleton (calls : List ModeCall) :
    (runModeCalls initModeSt calls).2.constructed = (if calls.isEmpty then 0 else 1) ∧
    (runModeCalls initModeSt calls).1.all (fun r => r == 0) = true := by
  cases calls with
  | nil => simp [runModeCalls, initModeSt]
  | cons c cs =>
    have h1 : runModeCalls initModeSt (c :: cs) =
        (0 :: List.replicate cs.length 0, ⟨some 0, 1⟩) := by
      cases c <;>
        simp [runModeCalls, createMode, theMode, initModeSt,
              runModeCalls_stable 0 cs ⟨some 0, 1⟩ rfl]
    rw [h1]
    refine ⟨rfl, ?_⟩
    simp [List.all_eq_true, List.mem_replicate]

/-- A successful `hierStep` appends exactly the processed name to the
`all_nodes_map` index. -/
theorem hierStep_indexed (host : Host) (st : HierSt) (name : String) (st₂ : HierSt)
    (h : hierStep host st name = .ok st₂) : st₂.indexed = st.indexed ++ [name] := by
  simp only [hierStep] at h
  split at h
  · injection h with h2
    subst h2
    rfl
  · split at h
    · injection h with h2
      subst h2
      rfl
    · cases h

/-- If some listed node's parent group is neither empty nor among the
names indexed before it, the hierarchy loop raises. -/
theorem hierRun_error (host : Host) : ∀ (pre : List String) (st : HierSt)
    (x : String) (post : List String),
    host.nodeGroup x ≠ "" → host.nodeGroup x ∉ st.indexed ++ pre →
    hierRun host st (pre ++ x :: post) = .error () := by
  intro pre
  induction pre with
  | nil =>
    intro st x post hg hmem
    have hstep : hierStep host st x = .error () := by
      unfold hierStep
      rw [if_neg hg, if_neg (by simpa using hmem)]
    simp [hierRun, hstep]
  | cons a pre ih =>
    intro st x post hg hmem
    show hierRun host st (a :: (pre ++ x :: post)) = .error ()
    cases hstep : hierStep host st a with
    | error e =>
      cases e
      simp [hierRun, hstep]
    | ok st₂ =>
      have hidx := hierStep_indexed host st a st₂ hstep
      have hmem₂ : host.nodeGroup x ∉ st₂.indexed ++ pre := by
        rw [hidx]
        simpa using hmem
      simp [hierRun, hstep, ih st₂ x post hg hmem₂]

/-- Claim C4: a host enumeration violating the ordering contract — some
node whose parent group has not been indexed when the node is processed —
makes `get_rv_hierarchy` fail with the uncaught `KeyError`, which aborts
the whole build instead of producing a tree. -/
theorem hierarchy_violation_aborts (host : Host)
    (h : ∃ pre x post, host.nodes = pre ++ x :: post ∧
         host.nodeGroup x ≠ "" ∧ host.nodeGroup x ∉ pre) :
    get_rv_hierarchy host = .error () ∧ build_graph host = .error () := by
  obtain ⟨pre, x, post, hsplit, hg, hmem⟩ := h
  have hrun : hierRun host ⟨[], []⟩ host.nodes = .error () := by
    rw [hsplit]
    exact hierRun_error host pre ⟨[], []⟩ x post hg (by simpa using hmem)
  have h1 : get_rv_hierarchy host = .error () := by
    unfold get_rv_hierarchy
    rw [hrun]
    rfl
  refine ⟨h1, ?_⟩
  unfold build_graph
  rw [h1]

/-- A host listing node `B` whose declared group `A` is never listed:
the ordering contract is broken at `B`. -/
def hostViolW : Host :=
  { nodes := ["B"]
    nodeGroup := fun _ => "A"
    nodeType := fun _ => ""
    nodeConnections := fun _ => ([], []) }

/-- Witness for C4 on the concrete contract-violating host. -/
theorem hierarchy_violation_aborts_witness :
    (∃ pre x post, hostViolW.nodes = pre ++ x :: post ∧
       hostViolW.nodeGroup x ≠ "" ∧ hostViolW.nodeGroup x ∉ pre) ∧
    get_rv_hierarchy hostViolW = .error () ∧ build_graph hostViolW = .error () :=
  ⟨⟨[], "B", [], rfl, by decide, by decide⟩,
   hierarchy_violation_aborts hostViolW ⟨[], "B", [], rfl, by decide, by decide⟩⟩

@[simp] theorem edges_addEdge (g : Canvas) (e : Edge) :
    (g.addEdge e).edges = g.edges ++ [e] := by
  cases g
  rfl

@[simp] theorem edges_addWarning (g : Canvas) (w : String) :
    (g.addWarning w).edges = g.edges := by
  cases g
  rfl

@[simp] theorem warnings_addEdge (g : Canvas) (e : Edge) :
    (g.addEdge e).warnings = g.warnings := by
  cases g
  rfl

@[simp] theorem warnings_addWarning (g : Canvas) (w : String) :
    (g.addWarning w).warnings = g.warnings ++ [w] := by
  cases g
  rfl

@[simp] theorem edges_setSub (g : Canvas) (nm : String) (b : Bool) (sub : Canvas) :
    (g.setSub nm b sub).edges = g.edges := by
  cases g
  simp only [Canvas.setSub]
  split <;> rfl

/-- Claim C2: during the edge-wiring pass, a node that either has no
downstream neighbors or whose sole downstream neighbor lies in a
different group than itself gets its output port wired to the synthetic
output boundary port whenever the current canvas is a sub-canvas (owning
that boundary port). -/
theorem wireEntry_output_boundary (host : Host)
    (rec : Canvas → List HTree → Canvas) (g : Canvas)
    (node_name : String) (children : List HTree) (node : VNode)
    (hfind : g.findNode (stripped_name host node_name) = some node)
    (hout : (host.nodeConnections node_name).2 = [] ∨
            ∃ o, (host.nodeConnections node_name).2 = [o] ∧
                 host.nodeGroup o ≠ host.nodeGroup node_name)
    (hsub : g.isSub = true) (hport : g.hasOutPort = true) :
    (⟨.vnode node.name, .boundaryOut⟩ : Edge) ∈
      (wireEntry host rec g (.node node_name children)).edges := by
  have houts : firstOutputOutside host node_name (host.nodeConnections node_name).2 = true := by
    rcases hout with h | ⟨o, h, hne⟩
    · rw [h]
      rfl
    · rw [h]
      simpa [firstOutputOutside, bne_iff_ne] using hne
  simp only [wireEntry, hfind, houts, hsub, Bool.and_self, if_true, hport]
  split <;> simp

/-- Claim C6: during the edge-wiring pass, a node with no upstream
neighbors gets the sub-canvas's synthetic input boundary port wired to
its input port when the current canvas is a sub-canvas owning such a
port; on a non-sub canvas the pass adds no wire at all for such a node. -/
theorem wireEntry_input_boundary (host : Host)
    (rec : Canvas → List HTree → Canvas) (g : Canvas)
    (node_name : String) (children : List HTree) (node : VNode)
    (hfind : g.findNode (stripped_name host node_name) = some node)
    (hin : (host.nodeConnections node_name).1 = []) :
    (g.isSub = true → g.hasInPort = true →
      (⟨.boundaryIn, .vnode node.name⟩ : Edge) ∈
        (wireEntry host rec g (.node node_name children)).edges)
    ∧ (g.isSub = false →
      (wireEntry host rec g (.node node_name children)).edges = g.edges) := by
  constructor
  · intro hsub hport
    have h1 : wireInputs host node node_name g (host.nodeConnections node_name).1 =
        g.addEdge ⟨.boundaryIn, .vnode node.name⟩ := by
      rw [hin]
      simp [wireInputs, hsub, hport]
    simp only [wireEntry, hfind, h1]
    split <;> (try simp only [edges_setSub]) <;> split <;> (try split) <;> simp
  · intro hsub
    have h1 : wireInputs host node node_name g (host.nodeConnections node_name).1 = g := by
      rw [hin]
      simp [wireInputs, hsub]
    simp only [wireEntry, hfind, h1, hsub, Bool.and_false, if_false]
    split <;> simp

/-- Claim C7: when wiring a node's upstream neighbors, a neighbor whose
visual node cannot be resolved in the current canvas contributes no wire
but a printed warning, and processing simply continues with the
remaining neighbors (and, at the outer level, with the remaining
entries); nothing fails. -/
theorem wireInputStep_missing (host : Host) (node : VNode) (node_name : String)
    (acc : Canvas) (bad : String) (rest : List String)
    (h : acc.findNode (stripped_name host bad) = none) :
    (wireInputStep host node node_name acc bad).edges = acc.edges
    ∧ (wireInputStep host node node_name acc bad).warnings =
        acc.warnings ++ ["WARNING: Input node " ++ bad ++ " not found for " ++ node_name]
    ∧ (bad :: rest).foldl (wireInputStep host node node_name) acc =
        rest.foldl (wireInputStep host node node_name)
          (acc.addWarning ("WARNING: Input node " ++ bad ++ " not found for " ++ node_name)) := by
  have h1 : wireInputStep host node node_name acc bad =
      acc.addWarning ("WARNING: Input node " ++ bad ++ " not found for " ++ node_name) := by
    simp only [wireInputStep, h]
  refine ⟨by simp [h1], by simp [h1], ?_⟩
  rw [List.foldl_cons, h1]

/-- Claim C10: in the edge-wiring pass, an entry whose own visual node
cannot be resolved by its stripped display name is skipped entirely —
the canvas is left untouched (no wires, no boundary connections, no
group expansion, no recursively built subtree) — and the pass continues
with the remaining entries. -/
theorem wireEntry_skips_unresolved (host : Host)
    (rec : Canvas → List HTree → Canvas) (g : Canvas)
    (node_name : String) (children ts : List HTree)
    (h : g.findNode (stripped_name host node_name) = none) :
    wireEntry host rec g (.node node_name children) = g
    ∧ wirePass host rec g (HTree.node node_name children :: ts) =
        wirePass host rec g ts := by
  have h1 : wireEntry host rec g (.node node_name children) = g := by
    simp only [wireEntry, h]
  exact ⟨h1, by simp [wirePass, h1]⟩

/-- A one-node host used to witness the wiring claims: node `A` has no
group, no neighbors. -/
def hostWireW : Host :=
  { nodes := ["A"]
    nodeGroup := fun _ => ""
    nodeType := fun _ => "RVSourceNode"
    nodeConnections := fun _ => ([], []) }

/-- The visual node pass 1 would create for `A`. -/
def vnodeAW : VNode :=
  { name := "A"
    original_name := "A"
    node_type := "RVSourceNode"
    color := (80, 120, 80)
    isGroup := false }

/-- A sub-canvas (with both boundary ports) holding the visual node of
`A` and nothing else. -/
def subCanvasW : Canvas := .mk true true true [vnodeAW] [] [] []

/-- Witness for C2: on the concrete sub-canvas, `A` (which has no
downstream neighbors) ends up wired to the output boundary port. -/
theorem wireEntry_output_boundary_witness :
    (⟨.vnode vnodeAW.name, .boundaryOut⟩ : Edge) ∈
      (wireEntry hostWireW (fun c _ => c) subCanvasW (.node "A" [])).edges :=
  wireEntry_output_boundary hostWireW (fun c _ => c) subCanvasW "A" [] vnodeAW
    rfl (Or.inl rfl) rfl rfl

/-- Witness for C6: on the concrete sub-canvas, `A` (which has no
upstream neighbors) gets the input boundary port wired to it; on the
top-level canvas nothing is wired. -/
theorem wireEntry_input_boundary_witness :
    (⟨.boundaryIn, .vnode vnodeAW.name⟩ : Edge) ∈
      (wireEntry hostWireW (fun c _ => c) subCanvasW (.node "A" [])).edges :=
  (wireEntry_input_boundary hostWireW (fun c _ => c) subCanvasW "A" [] vnodeAW
    rfl rfl).1 rfl rfl

/-- Witness for C7: wiring the unresolvable neighbor `X` on the empty
top-level canvas adds no wire, prints the warning, and the loop goes on. -/
theorem wireInputStep_missing_witness :
    (wireInputStep hostWireW vnodeAW "A" topCanvas "X").edges = topCanvas.edges
    ∧ (wireInputStep hostWireW vnodeAW "A" topCanvas "X").warnings =
        topCanvas.warnings ++ ["WARNING: Input node " ++ "X" ++ " not found for " ++ "A"]
    ∧ (["X"] : List String).foldl (wireInputStep hostWireW vnodeAW "A") topCanvas =
        ([] : List String).foldl (wireInputStep hostWireW vnodeAW "A")
          (topCanvas.addWarning ("WARNING: Input node " ++ "X" ++ " not found for " ++ "A")) :=
  wireInputStep_missing hostWireW vnodeAW "A" topCanvas "X" [] rfl

/-- Witness for C10: the entry `Z`, absent from the empty top-level
canvas, is skipped without any effect and the pass moves on. -/
theorem wireEntry_skips_unresolved_witness :
    wireEntry hostWireW (fun c _ => c) topCanvas (.node "Z" []) = topCanvas
    ∧ wirePass hostWireW (fun c _ => c) topCanvas [HTree.node "Z" []] =
        wirePass hostWireW (fun c _ => c) topCanvas [] :=
  wireEntry_skips_unresolved hostWireW (fun c _ => c) topCanvas "Z" [] [] rfl

theorem occF_append (m : String) (a b : List HTree) :
    occF m (a ++ b) = occF m a + occF m b := by
  induction a with
  | nil => simp [occF]
  | cons t ts ih =>
    rw [List.cons_append]
    rw [occF, occF]
    rw [ih]
    omega

theorem childKeysF_append (p : String) (a b : List HTree) :
    childKeysF p (a ++ b) = childKeysF p a ++ childKeysF p b := by
  induction a with
  | nil => simp [childKeysF]
  | cons t ts ih => simp [childKeysF, ih]

theorem occT_leaf (m k : String) : occT m (.node k []) = if k = m then 1 else 0 := by
  simp [occT, occF]

theorem childKeysT_leaf (p k : String) : childKeysT p (.node k []) = [] := by
  simp [childKeysT, childKeysF]

/-- A key occurring nowhere in a forest in particular is no top-level
key. -/
theorem not_any_key (k : String) : ∀ f : List HTree,
    occF k f = 0 → f.any (fun t => t.key == k) = false := by
  intro f
  induction f with
  | nil => simp
  | cons t ts ih =>
    intro h
    cases t with
    | node nm cs =>
      simp only [occF, occT] at h
      have hnm : nm ≠ k := by
        intro he
        simp [he] at h
      have hts : occF k ts = 0 := by omega
      rw [List.any_cons, ih hts]
      simp [HTree.key, hnm]

/-- Inserting a fresh key into a dictionary appends it. -/
theorem dictInsert_fresh (f : List HTree) (k : String) (h : occF k f = 0) :
    dictInsert f k = f ++ [.node k []] := by
  simp [dictInsert, not_any_key k f h]

/-- Inserting under a name that occurs nowhere changes nothing. -/
theorem insF_zero (g k : String) : ∀ (f : List HTree), occF g f = 0 → insF g k f = f
  | [], _ => rfl
  | .node nm cs :: ts, h => by
    have hsplit : occT g (.node nm cs) = 0 ∧ occF g ts = 0 := by
      simp only [occF] at h
      omega
    have hnm : nm ≠ g := by
      intro he
      simp [occT, he] at hsplit
    have hcs : occF g cs = 0 := by
      have h2 := hsplit.1
      simp only [occT] at h2
      omega
    simp only [insF, insT, if_neg hnm]
    rw [insF_zero g k cs hcs, insF_zero g k ts hsplit.2]

/-- Insertion under a group never changes the top-level keys. -/
theorem keys_insF (g k : String) : ∀ f : List HTree,
    (insF g k f).map HTree.key = f.map HTree.key
  | [] => rfl
  | .node nm cs :: ts => by
    simp only [insF, insT, List.map_cons, HTree.key]
    rw [keys_insF g k ts]

/-- Inserting a fresh key under the unique occurrence of `g` adds exactly
one occurrence of that key and changes no other count. -/
theorem occF_insF (g k : String) : ∀ (f : List HTree), occF g f = 1 → occF k f = 0 →
    ∀ m, occF m (insF g k f) = occF m f + (if k = m then 1 else 0)
  | [], h1, _, m => by simp [occF] at h1
  | .node nm cs :: ts, h1, h0, m => by
    simp only [occF, occT] at h1 h0
    have h0cs : occF k cs = 0 := by omega
    have h0ts : occF k ts = 0 := by omega
    by_cases hg : nm = g
    · rw [if_pos hg] at h1
      have hts0 : occF g ts = 0 := by omega
      simp only [insF, insT, if_pos hg]
      rw [dictInsert_fresh cs k h0cs, insF_zero g k ts hts0]
      simp only [occF, occT, occF_append, occT_leaf]
      omega
    · rw [if_neg hg] at h1
      simp only [insF, insT, if_neg hg]
      rcases (by omega : occF g cs = 1 ∧ occF g ts = 0 ∨ occF g cs = 0 ∧ occF g ts = 1) with
        ⟨ha, hb⟩ | ⟨ha, hb⟩
      · rw [insF_zero g k ts hb]
        simp only [occF, occT]
        rw [occF_insF g k cs ha h0cs m]
        omega
      · rw [insF_zero g k cs ha]
        simp only [occF, occT]
        rw [occF_insF g k ts hb h0ts m]
        omega

/-- Inserting a fresh key `k` under the unique occurrence of `g` adds `k`
to the child keys of `g` and to no other child-key set. -/
theorem mem_childKeysF_insF (g k : String) : ∀ (f : List HTree),
    occF g f = 1 → occF k f = 0 → ∀ p m,
    (m ∈ childKeysF p (insF g k f) ↔ m ∈ childKeysF p f ∨ (p = g ∧ m = k))
  | [], h1, _, p, m => by simp [occF] at h1
  | .node nm cs :: ts, h1, h0, p, m => by
    simp only [occF, occT] at h1 h0
    have h0cs : occF k cs = 0 := by omega
    have h0ts : occF k ts = 0 := by omega
    by_cases hg : nm = g
    · rw [if_pos hg] at h1
      have hts0 : occF g ts = 0 := by omega
      simp only [insF, insT, if_pos hg]
      rw [dictInsert_fresh cs k h0cs, insF_zero g k ts hts0]
      simp only [childKeysF, childKeysT, childKeysF_append, List.map_append,
                 List.map_cons, List.map_nil, HTree.key, childKeysT_leaf,
                 ite_self, List.mem_append, List.mem_singleton, List.append_nil]
      by_cases hp : nm = p
      · subst hp
        simp only [hg, eq_self_iff_true, if_true, true_and, ite_self,
                   List.mem_append, List.mem_singleton, List.not_mem_nil, or_false,
                   false_or]
        tauto
      · have hp3 : ¬(p = g) := fun he => hp (hg.trans he.symm)
        simp only [if_neg hp, hp3, false_and, or_false, ite_self,
                   List.not_mem_nil, false_or]
    · rw [if_neg hg] at h1
      simp only [insF, insT, if_neg hg]
      rcases (by omega : occF g cs = 1 ∧ occF g ts = 0 ∨ occF g cs = 0 ∧ occF g ts = 1) with
        ⟨ha, hb⟩ | ⟨ha, hb⟩
      · rw [insF_zero g k ts hb]
        simp only [childKeysF, childKeysT, keys_insF, List.mem_append]
        rw [mem_childKeysF_insF g k cs ha h0cs p m]
        tauto
      · rw [insF_zero g k cs ha]
        simp only [childKeysF, childKeysT, List.mem_append]
        rw [mem_childKeysF_insF g k ts hb h0ts p m]
        tauto

/-- Where a processed node must sit in the forest: a root entry when its
declared group is empty, otherwise a child key of its declared group. -/
def Placed (host : Host) (f : List HTree) (m : String) : Prop :=
  if host.nodeGroup m = "" then m ∈ f.map HTree.key
  else m ∈ childKeysF (host.nodeGroup m) f

/-- Loop invariant of `get_rv_hierarchy` after processing the names in
`done`: the index is exactly `done`, every processed name occurs exactly
once in the forest, no other name occurs, and every processed name sits
under its declared parent. -/
def HierInv (host : Host) (done : List String) (st : HierSt) : Prop :=
  st.indexed = done
  ∧ (∀ m, occF m st.forest = if m ∈ done then 1 else 0)
  ∧ (∀ m ∈ done, Placed host st.forest m)

/-- Main induction for the hierarchy builder: under the host's
parent-before-child ordering and name uniqueness, the loop runs to
completion and maintains the invariant. -/
theorem hierRun_ok (host : Host)
    (hord : ∀ pre x post, host.nodes = pre ++ x :: post →
            host.nodeGroup x ≠ "" → host.nodeGroup x ∈ pre) :
    ∀ (rest done : List String) (st : HierSt),
    host.nodes = done ++ rest → host.nodes.Nodup →
    HierInv host done st →
    ∃ st₂, hierRun host st rest = .ok st₂ ∧ HierInv host (done ++ rest) st₂ := by
  intro rest
  induction rest with
  | nil =>
    intro done st hsplit hnd hinv
    exact ⟨st, rfl, by simpa using hinv⟩
  | cons name rest ih =>
    intro done st hsplit hnd hinv
    obtain ⟨hidx, hocc, hplaced⟩ := hinv
    have hnd₂ : (done ++ name :: rest).Nodup := hsplit ▸ hnd
    have hnotin : name ∉ done := fun hmem =>
      (List.nodup_append.mp hnd₂).2.2 hmem (List.mem_cons_self name rest)
    have hfresh : occF name st.forest = 0 := by
      rw [hocc]
      simp [hnotin]
    by_cases hg : host.nodeGroup name = ""
    · have hstep : hierStep host st name =
          .ok ⟨dictInsert st.forest name, st.indexed ++ [name]⟩ := by
        simp [hierStep, hg]
      have hins : dictInsert st.forest name = st.forest ++ [.node name []] :=
        dictInsert_fresh _ _ hfresh
      have hinv₂ : HierInv host (done ++ [name])
          ⟨dictInsert st.forest name, st.indexed ++ [name]⟩ := by
        refine ⟨by rw [hidx], ?_, ?_⟩
        · intro m
          show occF m (dictInsert st.forest name) = _
          rw [hins, occF_append, hocc m]
          simp only [occF, occT_leaf]
          by_cases hm : m = name
          · subst hm
            simp [hnotin]
          · have hm2 : ¬(name = m) := fun he => hm he.symm
            simp [List.mem_append, hm, hm2]
        · intro m hm
          rcases List.mem_append.mp hm with hmd | hmn
          · have hp := hplaced m hmd
            show Placed host (dictInsert st.forest name) m
            rw [hins]
            by_cases hgm : host.nodeGroup m = ""
            · simp only [Placed, if_pos hgm] at hp ⊢
              rw [List.map_append]
              exact List.mem_append_left _ hp
            · simp only [Placed, if_neg hgm] at hp ⊢
              rw [childKeysF_append]
              exact List.mem_append_left _ hp
          · have hmn₂ : m = name := by simpa using hmn
            subst hmn₂
            show Placed host (dictInsert st.forest m) m
            simp only [Placed, if_pos hg]
            rw [hins, List.map_append]
            simp [HTree.key]
      have hsplit₂ : host.nodes = (done ++ [name]) ++ rest := by
        rw [hsplit]
        simp
      obtain ⟨st₂, hrun, hinv₃⟩ := ih (done ++ [name]) _ hsplit₂ hnd hinv₂
      refine ⟨st₂, ?_, ?_⟩
      · simp [hierRun, hstep, hrun]
      · have : (done ++ [name]) ++ rest = done ++ name :: rest := by simp
        rwa [this] at hinv₃
    · have hgin : host.nodeGroup name ∈ done := hord done name rest hsplit hg
      have hgidx : host.nodeGroup name ∈ st.indexed := by
        rw [hidx]
        exact hgin
      have hocc_g : occF (host.nodeGroup name) st.forest = 1 := by
        rw [hocc]
        simp [hgin]
      have hstep : hierStep host st name =
          .ok ⟨insF (host.nodeGroup name) name st.forest, st.indexed ++ [name]⟩ := by
        simp [hierStep, hg, hgidx]
      have hinv₂ : HierInv host (done ++ [name])
          ⟨insF (host.nodeGroup name) name st.forest, st.indexed ++ [name]⟩ := by
        refine ⟨by rw [hidx], ?_, ?_⟩
        · intro m
          show occF m (insF (host.nodeGroup name) name st.forest) = _
          rw [occF_insF _ _ st.forest hocc_g hfresh m, hocc m]
          by_cases hm : m = name
          · subst hm
            simp [hnotin]
          · have hm2 : ¬(name = m) := fun he => hm he.symm
            simp [List.mem_append, hm, hm2]
        · intro m hm
          rcases List.mem_append.mp hm with hmd | hmn
          · have hp := hplaced m hmd
            show Placed host (insF (host.nodeGroup name) name st.forest) m
            by_cases hgm : host.nodeGroup m = ""
            · simp only [Placed, if_pos hgm] at hp ⊢
              rw [keys_insF]
              exact hp
            · simp only [Placed, if_neg hgm] at hp ⊢
              exact (mem_childKeysF_insF _ _ st.forest hocc_g hfresh _ m).mpr (Or.inl hp)
          · have hmn₂ : m = name := by simpa using hmn
            subst hmn₂
            show Placed host (insF (host.nodeGroup m) m st.forest) m
            simp only [Placed, if_neg hg]
            exact (mem_childKeysF_insF _ _ st.forest hocc_g hfresh _ m).mpr
              (Or.inr ⟨rfl, rfl⟩)
      have hsplit₂ : host.nodes = (done ++ [name]) ++ rest := by
        rw [hsplit]
        simp
      obtain ⟨st₂, hrun, hinv₃⟩ := ih (done ++ [name]) _ hsplit₂ hnd hinv₂
      refine ⟨st₂, ?_, ?_⟩
      · simp [hierRun, hstep, hrun]
      · have : (done ++ [name]) ++ rest = done ++ name :: rest := by simp
        rwa [this] at hinv₃

/-- Claim C1: for every host enumeration (each node listed once) in
which each node's parent group is listed before the node itself,
`get_rv_hierarchy` succeeds and returns a nested mapping in which every
enumerated node appears exactly once, under its declared parent group's
dictionary, or as a root entry when it has no parent group. -/
theorem get_rv_hierarchy_correct (host : Host)
    (hnodup : host.nodes.Nodup)
    (hord : ∀ pre x post, host.nodes = pre ++ x :: post →
            host.nodeGroup x ≠ "" → host.nodeGroup x ∈ pre) :
    ∃ forest, get_rv_hierarchy host = .ok forest ∧
      ∀ name ∈ host.nodes,
        occF name forest = 1 ∧
        (if host.nodeGroup name = "" then name ∈ forest.map HTree.key
         else name ∈ childKeysF (host.nodeGroup name) forest) := by
  have hinv0 : HierInv host [] ⟨[], []⟩ := by
    refine ⟨rfl, ?_, ?_⟩
    · intro m
      simp [occF]
    · intro m hm
      cases hm
  obtain ⟨st₂, hrun, hinv⟩ :=
    hierRun_ok host hord host.nodes [] ⟨[], []⟩ (by simp) hnodup hinv0
  refine ⟨st₂.forest, ?_, ?_⟩
  · unfold get_rv_hierarchy
    rw [hrun]
    rfl
  · intro name hname
    obtain ⟨_, hocc, hplaced⟩ := hinv
    refine ⟨?_, ?_⟩
    · rw [hocc]
      simp [hname]
    · have h2 := hplaced name (by simpa using hname)
      simpa [Placed] using h2

/-- A two-node host: group node `G` at the root, node `A` inside it,
listed parent first. -/
def hostHierW : Host :=
  { nodes := ["G", "A"]
    nodeGroup := fun n => if n = "A" then "G" else ""
    nodeType := fun _ => ""
    nodeConnections := fun _ => ([], []) }

/-- Witness for C1 on the concrete two-node host. -/
theorem get_rv_hierarchy_correct_witness :
    ∃ forest, get_rv_hierarchy hostHierW = .ok forest ∧
      ∀ name ∈ hostHierW.nodes,
        occF name forest = 1 ∧
        (if hostHierW.nodeGroup name = "" then name ∈ forest.map HTree.key
         else name ∈ childKeysF (hostHierW.nodeGroup name) forest) := by
  refine get_rv_hierarchy_correct hostHierW (by decide) ?_
  intro pre x post h hx
  simp only [hostHierW] at h hx ⊢
  rcases pre with _ | ⟨a, _ | ⟨b, pre⟩⟩
  · rw [List.nil_append] at h
    injection h with h1 h2
    subst h1
    simp at hx
  · rw [List.cons_append, List.nil_append] at h
    injection h with h1 h2
    injection h2 with h3 h4
    subst h1
    subst h3
    simp
  · rw [List.cons_append, List.cons_append] at h
    injection h with h1 h2
    injection h2 with h3 h4
    simp at h4
